import Mathlib

/-!
Verification of the pipeline definition-and-evaluation engine of
`automated-liquity-defi` (files `pipeline/pipeline.py`, `pipeline/params.py`,
`pipeline/evaluation.py`, `errors.py`).

The development is a shallow embedding: Python dataclasses become Lean
structures/inductives, the visitor-based traversal becomes a recursive
interpreter over the step tree, exceptions become `Except`, and the
`logger.warn` side channel of `Repeat.accept` becomes an explicit boolean
carried through results.  Scalar parameter/state values (JSON-compatible
types plus `Decimal`-based assets) are modelled by `PVal`; `Decimal` is kept
in its (mantissa, fractional-digit-count) form so that e.g. `0.00` and `0`
stay distinguishable exactly as Python `Decimal` payloads do.
-/

namespace AutoDefi

/-- Scalar values that can live in pipeline `State`, in `Param` defaults and
in resolved parameters: Python `str`, `int`, `bool`, and `Decimal` (modelled
as mantissa `m` with `e` fractional digits, i.e. the value `m / 10 ^ e`). -/
inductive PVal where
  | vstr (s : String)
  | vint (n : Int)
  | vbool (b : Bool)
  | vdec (m : Int) (e : Nat)
  deriving DecidableEq, Repr

/-- The declared type of a `Param` (`Param.type` in `params.py`): one of the
types admitted by the `T` type variable there (`str`, `int`, `bool`, or a
`Decimal`-derived asset class). -/
inductive PTy where
  | pstr
  | pint
  | pbool
  | pdec
  deriving DecidableEq, Repr

/-- Python truthiness (`bool(x)`) restricted to the scalar universe:
`0`, `""`, `False` and zero decimals are falsy, everything else truthy. -/
def truthyP : PVal → Bool
  | .vstr s => s ≠ ""
  | .vint n => n ≠ 0
  | .vbool b => b
  | .vdec m _ => m ≠ 0

/-- The zero value `T()` produced by calling a parameter type with no
arguments (`Param.initial` falls back to this): `str()`, `int()`, `bool()`,
`Decimal()`. -/
def zeroOf : PTy → PVal
  | .pstr => .vstr ""
  | .pint => .vint 0
  | .pbool => .vbool false
  | .pdec => .vdec 0 0

/-- Decimal digit characters, little helper shared by number printing. -/
def digCh (d : Nat) : Char := Nat.digitChar d

/-- Fueled big-endian decimal digit list of a natural number; fuel `n + 1`
always suffices for input `n` because the argument at least halves at every
step.  A structural (fuel) recursion is used so the kernel can evaluate it. -/
def natDecAux : Nat → Nat → List Char
  | 0, _ => []
  | fuel + 1, n => if n < 10 then [digCh n] else natDecAux fuel (n / 10) ++ [digCh (n % 10)]

/-- Decimal string of a natural number, as produced by Python `str`/`format`. -/
def natDec (n : Nat) : String := ⟨natDecAux (n + 1) n⟩

/-- Decimal string of an integer, as produced by Python `str(int)`. -/
def intDec (n : Int) : String :=
  if n < 0 then "-" ++ natDec (-n).toNat else natDec n.toNat

/-- Plain (non-scientific) rendering of a `Decimal` with mantissa `m` and `e`
fractional digits, as Python `str(Decimal(...))` renders typical pipeline
values: the digit string of `|m|` padded to at least `e + 1` digits, with a
point before the last `e` digits, and a sign in front. -/
def decDec (m : Int) (e : Nat) : String :=
  let ds := natDec m.natAbs
  let ds := String.mk (List.replicate (e + 1 - ds.length) '0') ++ ds
  let whole := String.mk (ds.data.take (ds.length - e))
  let frac := String.mk (ds.data.drop (ds.length - e))
  (if m < 0 then "-" else "") ++ (if e = 0 then whole else whole ++ "." ++ frac)

/-- Python `str(x)` on a scalar (never fails). -/
def strOf : PVal → String
  | .vstr s => s
  | .vint n => intDec n
  | .vbool b => if b then "True" else "False"
  | .vdec m e => decDec m e

/-- Numeric value of one decimal digit character. -/
def digitVal (c : Char) : Option Nat :=
  if c.isDigit then some (c.toNat - '0'.toNat) else none

/-- Numeric value of a big-endian list of decimal digit characters, or
`none` when the list is empty or contains a non-digit. -/
def digitsVal : List Char → Option Nat
  | [] => none
  | [c] => digitVal c
  | c :: rest => do
      let hi ← digitVal c
      let lo ← digitsVal rest
      some (hi * 10 ^ rest.length + lo)

/-- Python `int(s)` on a string: optional sign then decimal digits;
anything else raises (`none`). -/
def parseInt (s : String) : Option Int :=
  match s.data with
  | '+' :: rest => (digitsVal rest).map Int.ofNat
  | '-' :: rest => (digitsVal rest).map fun n => -(n : Int)
  | l => (digitsVal l).map Int.ofNat

/-- Python `Decimal(s)` on a string: optional sign, digits with an optional
decimal point (at least one digit overall); yields mantissa and number of
fractional digits.  Exponent notation is not used by the pipeline inputs and
is not modelled. -/
def parseDec (s : String) : Option (Int × Nat) :=
  let core : List Char → Option (Int × Nat) := fun l =>
    match l.splitOn '.' with
    | [ip] => (digitsVal ip).map fun n => ((n : Int), 0)
    | [ip, fp] =>
        if ip.isEmpty ∧ fp.isEmpty then none
        else
          let ipv := if ip.isEmpty then some 0 else digitsVal ip
          let fpv := if fp.isEmpty then some 0 else digitsVal fp
          match ipv, fpv with
          | some i, some f => some (((i * 10 ^ fp.length + f : Nat) : Int), fp.length)
          | _, _ => none
    | _ => none
  match s.data with
  | '+' :: rest => core rest
  | '-' :: rest => (core rest).map fun p => (-p.1, p.2)
  | l => core l

/-- Python `int(x)` on a scalar: identity on ints, `0/1` on bools, digit
parse on strings, truncation toward zero on decimals. -/
def intOf : PVal → Option Int
  | .vint n => some n
  | .vbool b => some (if b then 1 else 0)
  | .vstr s => parseInt s
  | .vdec m e => some (Int.tdiv m ((10 : Int) ^ e))

/-- Python `Decimal(x)` on a scalar: identity on decimals, exact on ints and
bools, parse on strings, failure otherwise. -/
def decOf : PVal → Option (Int × Nat)
  | .vdec m e => some (m, e)
  | .vint n => some (n, 0)
  | .vbool b => some (if b then 1 else 0, 0)
  | .vstr s => parseDec s

/-- Type coercion `param.type(value)` of `Step._prepare_args`: applying the
parameter's declared type constructor to a raw scalar; `none` models the
exception caught and re-raised as `InvalidParamTypeError`. -/
def coerce : PTy → PVal → Option PVal
  | .pstr, v => some (.vstr (strOf v))
  | .pint, v => (intOf v).map .vint
  | .pbool, v => some (.vbool (truthyP v))
  | .pdec, v => (decOf v).map fun p => .vdec p.1 p.2

/-- Execution state (`State` in `evaluation.py`): a string-keyed mapping,
modelled as an association list where `setS` overwrites in place. -/
def StateM := List (String × PVal)
  deriving DecidableEq, Repr

/-- Dictionary lookup `state.get(key)` / `state[key]`. -/
def getS (s : StateM) (k : String) : Option PVal :=
  match s with
  | [] => none
  | (k', v) :: rest => if k' = k then some v else getS rest k

/-- Dictionary update `state[key] = value`: replaces the existing binding or
appends a new one, like a Python dict. -/
def setS (s : StateM) (k : String) (v : PVal) : StateM :=
  match s with
  | [] => [(k, v)]
  | (k', v') :: rest => if k' = k then (k, v) :: rest else (k', v') :: setS rest k v

/-- Raw user-parameter values: the nested `user_params` document can hold
scalars, `None`, or nested dictionaries keyed by step slug. -/
inductive UVal where
  | prim (v : PVal)
  | nullv
  | dict (entries : List (String × UVal))

/-- The user-parameter mapping handed to one step (one level of the nested
`user_params` document). -/
def UP := List (String × UVal)

/-- Dictionary lookup in a user-parameter mapping. -/
def lookupU (u : UP) (k : String) : Option UVal :=
  match u with
  | [] => none
  | (k', v) :: rest => if k' = k then some v else lookupU rest k

/-- Sub-dictionary selection `user_params.get(step.slug, {})`: a missing key
or a non-dictionary value yields the empty mapping. -/
def upFor (u : UP) (slug : String) : UP :=
  match lookupU u slug with
  | some (.dict d) => d
  | _ => []

mutual

/-- Python `repr` of a raw user value, used only when `str()` is applied to
a nested dictionary (string escaping is not modelled). -/
def uvalRepr : UVal → String
  | .prim (.vstr s) => "'" ++ s ++ "'"
  | .prim v => strOf v
  | .nullv => "None"
  | .dict entries => "\x7b" ++ uvalReprEntries entries ++ "\x7d"

/-- Comma-separated `repr` of dictionary entries. -/
def uvalReprEntries : List (String × UVal) → String
  | [] => ""
  | [(k, v)] => "'" ++ k ++ "': " ++ uvalRepr v
  | (k, v) :: rest => "'" ++ k ++ "': " ++ uvalRepr v ++ ", " ++ uvalReprEntries rest

end

/-- Type coercion applied to a raw user value (`p.type(user_param)` where
`user_param` came from the user document): scalars coerce as `coerce`;
`str()` of a dictionary is its `repr`, `bool()` of a dictionary its
non-emptiness, and numeric constructors raise on dictionaries.  The `None`
case is unreachable (filtered by the caller) and modelled as failure. -/
def coerceU : PTy → UVal → Option PVal
  | ty, .prim v => coerce ty v
  | _, .nullv => none
  | .pstr, u => some (.vstr (uvalRepr u))
  | .pbool, .dict entries => some (.vbool (!entries.isEmpty))
  | _, .dict _ => none

/-- The resolved max-iteration count of a `Repeat`, or the Python `TypeError`
raised when `range()` is applied to a non-integer: `int` is used as is and
`bool` as `0/1` (a subclass of `int` in Python); anything else raises. -/
def toRangeInt : PVal → Option Int
  | .vint n => some n
  | .vbool b => some (if b then 1 else 0)
  | _ => none

/-- Formal description of a user parameter (`Param` in `params.py`). -/
structure PParam where
  ty : PTy
  key : String
  name : String := ""
  required : Bool := true
  default : Option PVal := none

/-- Schema-export initial value (`Param.initial` in `params.py`):
`(self.default or self.type()) if self.required else None`, where Python's
`or` replaces a falsy default by the zero value `self.type()`. -/
def PParam.initial (p : PParam) : Option PVal :=
  if p.required then
    some (match p.default with
      | some d => if truthyP d then d else zeroOf p.ty
      | none => zeroOf p.ty)
  else none

/-- Reference to a state entry (`Ref` in `params.py`). -/
structure PRef where
  key : String
  required : Bool := false
  default : Option PVal := none

/-- Resolved maximum of a `Repeat`: the `max` field either still holds its
class-level `Param` descriptor or was overridden with a scalar literal at
pipeline-definition time. -/
inductive MaxField where
  | lit (v : PVal)
  | par (p : PParam)

/-- The step tree (`Step` and its subclasses in `pipeline.py`).  Every
non-composite step kind dispatches to exactly one visitor method of the
executor after resolving its parameters; for the control-flow claims this
whole resolved-step-plus-visitor-method pipeline is abstracted as one
arbitrary function `run : StateM → StateM × Bool` returning the evaluation's
state and chain-effect flag (quantifying over `run` quantifies over all
executors and leaf parameterizations at once).  `className` records the
Python class name, used for automatic slug generation.  `Group` carries its
`given` guards, optional `entry_condition` and children; `Repeat` adds the
`max` field (non-semantic fields `description`/`hide_details` are omitted). -/
inductive Step where
  | leaf (className : String) (slug : String) (run : StateM → StateM × Bool)
  | group (slug : String) (given : List Step) (entry : Option Step) (steps : List Step)
  | repeatG (slug : String) (given : List Step) (entry : Option Step) (steps : List Step)
      (maxF : MaxField)

/-- The slug of a step. -/
def Step.slugOf : Step → String
  | .leaf _ s _ => s
  | .group s _ _ _ => s
  | .repeatG s _ _ _ _ => s

/-- The Python class name of a step, as used by slug generation. -/
def Step.classNameOf : Step → String
  | .leaf c _ _ => c
  | .group _ _ _ _ => "Group"
  | .repeatG _ _ _ _ _ => "Repeat"

/-- Errors of `errors.py` that the engine itself can raise during traversal.
`invalidChainEffectStep` models the `entry_condition` branch of
`Group._eval_condition`, which passes the step object itself (not its slug)
as `step_slug`; `typeErrorAtRuntime` models an uncaught Python `TypeError`
(e.g. `range()` over a non-integer `max`). -/
inductive Err where
  | invalidReference (stepSlug key : String)
  | invalidFormalParamType (stepSlug name : String)
  | invalidFormalParam (stepSlug name : String)
  | invalidChainEffect (stepSlug caller : String)
  | invalidChainEffectStep (step : Step) (caller : String)
  | unmetPrecondition (stepSlug msg : String)
  | missingParam (stepSlug paramKey : String)
  | invalidParamType (stepSlug name : String) (value : UVal)
  | typeErrorAtRuntime (stepSlug : String)

/-- The two error families of `errors.py`: subclasses of
`PipelineDefinitionError` versus subclasses of `PipelineExecutionError`. -/
inductive ErrFamily where
  | definitionError
  | executionError
  deriving DecidableEq, Repr

/-- Class-hierarchy placement of each error, read off `errors.py`:
`InvalidReferenceError`, `InvalidFormalParamTypeError`,
`InvalidFormalParamError` and `InvalidChainEffectError` extend
`PipelineDefinitionError`; `UnmetPreconditionError`, `MissingParamError`,
`InvalidParamTypeError` (and `APIError`) extend `PipelineExecutionError`.
The uncaught-`TypeError` marker is neither; it is grouped with execution
errors only because a family must be total. -/
def famOf : Err → ErrFamily
  | .invalidReference _ _ => .definitionError
  | .invalidFormalParamType _ _ => .definitionError
  | .invalidFormalParam _ _ => .definitionError
  | .invalidChainEffect _ _ => .definitionError
  | .invalidChainEffectStep _ _ => .definitionError
  | .unmetPrecondition _ _ => .executionError
  | .missingParam _ _ => .executionError
  | .invalidParamType _ _ _ => .executionError
  | .typeErrorAtRuntime _ => .executionError

/-- Instance value of one formal-parameter field of a step: either a literal
scalar fixed at definition time, a (possibly overridden) `Param`, or a
`Ref` into state — the three `isinstance` branches of
`Step._prepare_args`. -/
inductive InstV where
  | lit (v : PVal)
  | par (p : PParam)
  | ref (r : PRef)

/-- A step as seen by parameter resolution: its slug and its formal-parameter
fields (`_formal_params`), each with the class-level `Param` descriptor and
the instance value. -/
structure PStep where
  slug : String
  fields : List (String × PParam × InstV)

/-- Resolution of a single formal-parameter field, mirroring the body of the
loop in `Step._prepare_args` (`pipeline.py` lines 194-222):
literals are coerced with the class-level descriptor's type; `Param`s look up
`user_params[p.key]` falling back to `p.default`, treat `None`/`""` as
missing, and coerce; `Ref`s look up state falling back to `r.default`.  (The
`InvalidFormalParamError` check after a successful literal coercion can never
fire because the admissible type constructors never return `None`, and the
`InvalidFormalParamTypeError` fallback branch is unreachable in this model
because `InstV` is exactly the union the code accepts.) -/
def resolveField (slug : String) (formal : PParam) (inst : InstV) (state : StateM)
    (u : UP) : Except Err (Option PVal) :=
  match inst with
  | .lit v =>
      match coerce formal.ty v with
      | none => .error (.invalidParamType slug formal.key (.prim v))
      | some a => .ok (some a)
  | .par p =>
      let userParam : Option UVal :=
        match lookupU u p.key with
        | some uv => some uv
        | none => p.default.map .prim
      match userParam with
      | none => if p.required then .error (.missingParam slug p.key) else .ok none
      | some .nullv => if p.required then .error (.missingParam slug p.key) else .ok none
      | some (.prim (.vstr "")) =>
          if p.required then .error (.missingParam slug p.key) else .ok none
      | some uv =>
          match coerceU p.ty uv with
          | none => .error (.invalidParamType slug p.key uv)
          | some a => .ok (some a)
  | .ref r =>
      let actual : Option PVal :=
        match getS state r.key with
        | some v => some v
        | none => r.default
      if actual = none ∧ r.required then .error (.invalidReference slug r.key)
      else .ok actual

/-- Resolution of all formal-parameter fields in declaration order, stopping
at the first error exactly as the Python loop raises. -/
def prepareFields (slug : String) (state : StateM) (u : UP) :
    List (String × PParam × InstV) → Except Err (List (String × Option PVal))
  | [] => .ok []
  | (f, formal, inst) :: rest => do
      let a ← resolveField slug formal inst state u
      let tail ← prepareFields slug state u rest
      .ok ((f, a) :: tail)

/-- Shallow embedding of `Step._prepare_args`: the resolved actual parameters
(field name to resolved value) that `replace(self, **actual_params)` writes
back into the step copy. -/
def prepareArgs (st : PStep) (state : StateM) (u : UP) :
    Except Err (List (String × Option PVal)) :=
  prepareFields st.slug state u st.fields

/-- The class-level `Param` descriptor of `Repeat.max`
(`Param[int](key="max", type=int, default=50)`). -/
def maxFormal : PParam := { ty := .pint, key := "max", default := some (.vint 50) }

/-- Resolution of the `max` field of a `Repeat` via `_prepare_args`,
specialised to that single formal parameter; `none` means the field resolved
to Python `None` (only possible for a non-required override). -/
def resolveMax (slug : String) (mf : MaxField) (u : UP) : Except Err (Option PVal) :=
  match mf with
  | .lit v => resolveField slug maxFormal (.lit v) [] u
  | .par p => resolveField slug maxFormal (.par p) [] u

/-- Executor hooks for structural nodes (`Visitor.enter_group` etc. in
`evaluation.py`): arbitrary state transformations supplied by the executor
(the Python methods also receive the step; instantiating these fields per
proof with functions that already know the step keeps full generality). -/
structure Visitor where
  enterGroup : StateM → StateM
  exitGroup : StateM → StateM
  enterRepeat : StateM → StateM
  exitRepeat : StateM → StateM

/-- Result of executing one step: the `Evaluation` named tuple (state and
chain-effect flag) together with `warned`, an explicit rendering of the
`logger.warn` side channel used by `Repeat.accept` when the iteration cap is
reached. -/
structure EvalW where
  state : StateM
  chainEffect : Bool
  warned : Bool

/-- Result of the `for c in range(self.max)` loop of `Repeat.accept`:
final state, the accumulated `any_chain_effect`, the final value of the loop
variable `c` (`0` if the loop never ran), the number of iterations entered,
whether the loop exited through a `break`, and warnings collected from
nested steps. -/
structure LoopRes where
  state : StateM
  anyEff : Bool
  c : Nat
  iters : Nat
  broke : Bool
  warned : Bool

/-- The iteration structure of `Repeat.accept` (`pipeline.py` lines 385-400),
parameterized by the condition evaluation (`_eval_condition`) and the body
(the `for step in self.steps` block): per entered iteration, re-evaluate the
condition on the current state and break if falsy, otherwise run the body
and break if the accumulated `any_chain_effect` is still false. -/
def repeatLoop (cond : StateM → Except Err (StateM × Bool × Bool))
    (body : StateM → Bool → Except Err (StateM × Bool × Bool)) :
    List Nat → StateM → Bool → Nat → Nat → Bool → Except Err LoopRes
  | [], s, any, lastC, n, w => .ok ⟨s, any, lastC, n, false, w⟩
  | i :: rest, s, any, _, n, w => do
      let (s1, condB, w1) ← cond s
      if condB then do
        let (s2, any2, w2) ← body s1 any
        if any2 then repeatLoop cond body rest s2 any2 i (n + 1) (w || w1 || w2)
        else .ok ⟨s2, any2, i, n + 1, true, w || w1 || w2⟩
      else .ok ⟨s1, any, i, n + 1, true, w || w1⟩

/-- Reserved state key read by `Group._eval_condition` for the boolean result
stored by the `entry_condition` step. -/
def condKey : String := "_condition_"

mutual

/-- Shallow embedding of the `accept` methods (`pipeline.py`): leaves run
their abstracted visitor dispatch; `Group.accept` enters, evaluates guards
and condition, conditionally runs children accumulating the OR of their
chain effects, and exits; `Repeat.accept` resolves `max`, enters, runs the
bounded loop, emits the cap warning when the final `c >= max - 1`, and
exits.  `u` is the step's own user-parameter sub-document. -/
def accept (v : Visitor) (u : UP) (t : Step) (s : StateM) : Except Err EvalW :=
  match t with
  | .leaf _ _ run =>
      let r := run s
      .ok ⟨r.1, r.2, false⟩
  | .group slug given entry steps => do
      let s0 := v.enterGroup s
      let (s1, condB, w1) ← evalCond v u slug given entry s0
      if condB then do
        let (s2, eff, w2) ← runChildren v u steps s1 false w1
        .ok ⟨v.exitGroup s2, eff, w2⟩
      else .ok ⟨v.exitGroup s1, false, w1⟩
  | .repeatG slug given entry steps maxF => do
      let mv ← resolveMax slug maxF u
      match mv.bind toRangeInt with
      | none => .error (.typeErrorAtRuntime slug)
      | some m => do
          let s0 := v.enterRepeat s
          let r ← repeatLoop (fun st => evalCond v u slug given entry st)
            (fun st any => runChildren v u steps st any false)
            (List.range m.toNat) s0 false 0 0 false
          let warned := r.warned || decide ((r.c : Int) ≥ m - 1)
          .ok ⟨v.exitRepeat r.state, r.anyEff, warned⟩
termination_by (sizeOf t, 0)

/-- Shallow embedding of `Group._eval_condition`: run the `given` guards,
then the `entry_condition` if declared, aborting with an invalid-chain-effect
error if either reports a chain effect; the condition is the truthiness of
`state.get("_condition_", False)`, or unconditionally true when no
`entry_condition` is declared. -/
def evalCond (v : Visitor) (u : UP) (cslug : String) (given : List Step)
    (entry : Option Step) (s : StateM) : Except Err (StateM × Bool × Bool) := do
  let (s1, w1) ← runGivens v u cslug given s false
  match entry with
  | some e => do
      let ev ← accept v (upFor u e.slugOf) e s1
      if ev.chainEffect then .error (.invalidChainEffectStep e (cslug ++ ".entry_condition"))
      else .ok (ev.state, truthyP ((getS ev.state condKey).getD (.vbool false)), w1 || ev.warned)
  | none => .ok (s1, true, w1)
termination_by (sizeOf given + sizeOf entry, 1)
decreasing_by
  all_goals simp_wf
  all_goals
    first
      | (have hopt : 0 < sizeOf entry := by cases entry <;> simp_arith
         exact Prod.Lex.left _ _ (by omega))
      | exact Prod.Lex.left _ _ (by omega)

/-- The guard loop of `Group._eval_condition`: thread state through the
`given` steps in order, aborting as soon as one reports a chain effect. -/
def runGivens (v : Visitor) (u : UP) (cslug : String) (gs : List Step) (s : StateM)
    (w : Bool) : Except Err (StateM × Bool) :=
  match gs with
  | [] => .ok (s, w)
  | g :: rest => do
      let ev ← accept v (upFor u g.slugOf) g s
      if ev.chainEffect then .error (.invalidChainEffect g.slugOf (cslug ++ ".given"))
      else runGivens v u cslug rest ev.state (w || ev.warned)
termination_by (sizeOf gs, 0)

/-- The child loop shared by `Group.accept` and `Repeat.accept`: execute the
children in declaration order, threading state forward and OR-ing every
child's chain effect into the accumulator. -/
def runChildren (v : Visitor) (u : UP) (ss : List Step) (s : StateM) (any : Bool)
    (w : Bool) : Except Err (StateM × Bool × Bool) :=
  match ss with
  | [] => .ok (s, any, w)
  | st :: rest => do
      let ev ← accept v (upFor u st.slugOf) st s
      runChildren v u rest ev.state (any || ev.chainEffect) (w || ev.warned)
termination_by (sizeOf ss, 0)

end

/-- Pipeline invocation (`Pipeline.__call__`): run the root on an empty state
with the sub-document addressed by the root's slug, returning the final
state. -/
def runPipeline (root : Step) (v : Visitor) (u : UP) : Except Err StateM :=
  (accept v (upFor u root.slugOf) root []).map (·.state)

/-- State-threading over a sequence of leaf behaviours: the final state after
running each in order (specification-side fold used to describe the child
loop). -/
def threadS : List (StateM → StateM × Bool) → StateM → StateM
  | [], s => s
  | f :: fs, s => threadS fs (f s).1

/-- OR of the chain effects reported along the threaded run of a sequence of
leaf behaviours. -/
def anyEffS : List (StateM → StateM × Bool) → StateM → Bool
  | [], _ => false
  | f :: fs, s => (f s).2 || anyEffS fs (f s).1

/-- First regex pass of `camel_to_snake` (`utils.py`): the global,
leftmost-non-overlapping substitution `(.)([A-Z][a-z]+) -> \1_\2`.  A match
consumes the preceding character, the capital and its maximal following
lowercase run; on no match at the current position the scan advances one
character.  Structural fuel recursion (fuel bounds the input length, which
decreases at every step) so the kernel can evaluate it. -/
def sub1F : Nat → List Char → List Char
  | 0, l => l
  | _ + 1, [] => []
  | _ + 1, [c] => [c]
  | _ + 1, [c, d] => [c, d]
  | fuel + 1, c :: d :: e :: tail =>
      if d.isUpper ∧ e.isLower then
        c :: '_' :: d :: e ::
          (tail.takeWhile Char.isLower ++ sub1F fuel (tail.dropWhile Char.isLower))
      else
        c :: sub1F fuel (d :: e :: tail)

/-- First substitution pass at its canonical fuel. -/
def sub1 (l : List Char) : List Char := sub1F l.length l

/-- Second regex pass of `camel_to_snake`: the global substitution
`([a-z0-9])([A-Z]) -> \1_\2`, again leftmost and non-overlapping. -/
def sub2F : Nat → List Char → List Char
  | 0, l => l
  | _ + 1, [] => []
  | _ + 1, [c] => [c]
  | fuel + 1, a :: b :: rest =>
      if (a.isLower ∨ a.isDigit) ∧ b.isUpper then a :: '_' :: b :: sub2F fuel rest
      else a :: sub2F fuel (b :: rest)

/-- Second substitution pass at its canonical fuel. -/
def sub2 (l : List Char) : List Char := sub2F l.length l

/-- Shallow embedding of `camel_to_snake` (`utils.py`): both substitution
passes followed by lower-casing. -/
def camelToSnake (s : String) : String :=
  ⟨(sub2 (sub1 s.data)).map Char.toLower⟩

/-- The candidate slug `"{}_{}".format(base_slug, i)` tried by
`Pipeline._init_slugs`. -/
def slugCand (base : String) (i : Nat) : String := base ++ "_" ++ natDec i

/-- The `while slug in seen` search of `Pipeline._init_slugs`, fueled: try
`base_i`, `base_(i+1)`, … until a candidate is free.  Fuel `len(seen) + 1`
always suffices (pigeonhole over the distinct candidates). -/
def freshGo (seen : List String) (base : String) : Nat → Nat → String
  | 0, i => slugCand base i
  | fuel + 1, i =>
      let c := slugCand base i
      if c ∈ seen then freshGo seen base fuel (i + 1) else c

/-- Slug generation for a step without a pre-assigned slug: the base name
itself if free, otherwise `base_1`, `base_2`, … . -/
def freshSlug (seen : List String) (base : String) : String :=
  if base ∈ seen then freshGo seen base (seen.length + 1) 1 else base

/-- The per-node body of `Pipeline._init_slugs`: a non-empty pre-assigned
slug must be unused (else the duplicate-slug `RuntimeError`); an empty slug
is replaced by a fresh one generated from the snake-cased class name.
Returns the node's final slug and the extended `seen` set. -/
def assignSlug (slug className : String) (seen : List String) :
    Except String (String × List String) :=
  if slug ≠ "" then
    if slug ∈ seen then .error ("duplicate slug found: " ++ slug)
    else .ok (slug, seen ++ [slug])
  else
    let s := freshSlug seen (camelToSnake className)
    .ok (s, seen ++ [s])

mutual

/-- Shallow embedding of `Pipeline._init_slugs`: walk the tree in `walk`
order (node itself, then `given`, then `entry_condition`, then children),
assigning or validating the slug of every step, threading the set of seen
slugs.  Returns the relabelled tree (Python mutates the steps in place). -/
def initSlugs (t : Step) (seen : List String) : Except String (Step × List String) :=
  match t with
  | .leaf cn slug run => do
      let (s', seen') ← assignSlug slug cn seen
      .ok (.leaf cn s' run, seen')
  | .group slug given entry steps => do
      let (s', seen1) ← assignSlug slug "Group" seen
      let (given', seen2) ← initList given seen1
      let (entry', seen3) ← initOpt entry seen2
      let (steps', seen4) ← initList steps seen3
      .ok (.group s' given' entry' steps', seen4)
  | .repeatG slug given entry steps maxF => do
      let (s', seen1) ← assignSlug slug "Repeat" seen
      let (given', seen2) ← initList given seen1
      let (entry', seen3) ← initOpt entry seen2
      let (steps', seen4) ← initList steps seen3
      .ok (.repeatG s' given' entry' steps' maxF, seen4)
termination_by sizeOf t

/-- Slug assignment over a list of sibling steps, in order. -/
def initList (ts : List Step) (seen : List String) :
    Except String (List Step × List String) :=
  match ts with
  | [] => .ok ([], seen)
  | t :: rest => do
      let (t', seen1) ← initSlugs t seen
      let (rest', seen2) ← initList rest seen1
      .ok (t' :: rest', seen2)
termination_by sizeOf ts

/-- Slug assignment over an optional step. -/
def initOpt (o : Option Step) (seen : List String) :
    Except String (Option Step × List String) :=
  match o with
  | none => .ok (none, seen)
  | some t => do
      let (t', seen') ← initSlugs t seen
      .ok (some t', seen')
termination_by sizeOf o

end

mutual

/-- The slugs of a tree in `walk` order. -/
def slugsOf (t : Step) : List String :=
  match t with
  | .leaf _ s _ => [s]
  | .group s given entry steps => s :: (slugsList given ++ slugsOpt entry ++ slugsList steps)
  | .repeatG s given entry steps _ =>
      s :: (slugsList given ++ slugsOpt entry ++ slugsList steps)
termination_by sizeOf t

/-- The slugs of a list of sibling trees in `walk` order. -/
def slugsList (ts : List Step) : List String :=
  match ts with
  | [] => []
  | t :: rest => slugsOf t ++ slugsList rest
termination_by sizeOf ts

/-- The slugs of an optional tree in `walk` order. -/
def slugsOpt (o : Option Step) : List String :=
  match o with
  | none => []
  | some t => slugsOf t
termination_by sizeOf o

end

mutual

/-- Every class name occurring in the tree is non-empty (trivially true of
Python class names; needed because the model represents them as arbitrary
strings). -/
def namesOk (t : Step) : Bool :=
  match t with
  | .leaf cn _ _ => cn ≠ ""
  | .group _ given entry steps => namesOkList given && namesOkOpt entry && namesOkList steps
  | .repeatG _ given entry steps _ =>
      namesOkList given && namesOkOpt entry && namesOkList steps
termination_by sizeOf t

/-- List version of `namesOk`. -/
def namesOkList (ts : List Step) : Bool :=
  match ts with
  | [] => true
  | t :: rest => namesOk t && namesOkList rest
termination_by sizeOf ts

/-- Option version of `namesOk`. -/
def namesOkOpt (o : Option Step) : Bool :=
  match o with
  | none => true
  | some t => namesOk t
termination_by sizeOf o

end

/-- Value of a big-endian decimal digit string (specification-side inverse
of `natDecAux`, used to prove decimal printing injective). -/
def decVal (l : List Char) : Nat :=
  l.foldl (fun acc c => acc * 10 + (c.toNat - '0'.toNat)) 0

/-- The candidate slugs `base_i, base_(i+1), …` (a window of `fuel` of them)
that are already taken in `seen` (specification-side device for the
pigeonhole argument behind `freshGo`). -/
def candList (seen : List String) (base : String) : Nat → Nat → List String
  | _, 0 => []
  | i, fuel + 1 =>
      (if slugCand base i ∈ seen then [slugCand base i] else []) ++
        candList seen base (i + 1) fuel

/-- A leaf behaviour that does nothing and reports no chain effect. -/
def noopRun : StateM → StateM × Bool := fun s => (s, false)

/-- The identity executor: all structural hooks leave state unchanged. -/
def idV : Visitor := ⟨id, id, id, id⟩

/-- Concrete loop body used to exercise `Repeat.accept`: increments the state
counter `i` and reports a chain effect exactly when the counter was `0`
before the increment — so the first iteration produces an effect and every
later iteration produces none. -/
def incOnceLeaf : Step :=
  .leaf "Transform" "inc" fun s =>
    let n := match getS s "i" with | some (.vint n) => n | _ => 0
    (setS s "i" (.vint (n + 1)), n == 0)

/-- Concrete `Repeat` with `max` fixed to the literal `3`, no guards and no
entry condition, around `incOnceLeaf`: its children report a chain effect in
the first iteration only. -/
def repOnce : Step := .repeatG "loop" [] none [incOnceLeaf] (.lit (.vint 3))

/-- Concrete loop body that writes `hit` and always reports a chain effect. -/
def alwaysEffLeaf : Step :=
  .leaf "Transform" "hit" fun s => (setS s "hit" (.vbool true), true)

/-- Concrete `Repeat` with `max = 2` around an always-effectful child: runs
to the iteration cap. -/
def repCap : Step := .repeatG "cap_loop" [] none [alwaysEffLeaf] (.lit (.vint 2))

/-- Concrete required integer `Param` with key `k` and no default. -/
def intParam : PParam := { ty := .pint, key := "k" }

/-- Claim-side rendering of the initial-value sentence as stated ("its
default if one is set, else a zero-value of its declared type when the param
is required, else absent"), for comparison with `PParam.initial`. -/
def claimInitial (p : PParam) : Option PVal :=
  match p.default with
  | some d => some d
  | none => if p.required then some (zeroOf p.ty) else none

/-- Concrete non-required string `Param` with a default, the shape on which
the literal initial-value sentence and the code disagree. -/
def ethTokenParam : PParam :=
  { ty := .pstr, key := "token", required := false, default := some (.vstr "ETH") }

/-- Concrete formal `Param` descriptor of a monetary `amount` field. -/
def amountFormal : PParam := { ty := .pdec, key := "amount" }

/-- Concrete required `Ref` into state, like
`WithdrawLUSD(amount=Ref(key="lusd_in_pool"))` but with `required=True`. -/
def lusdRef : PRef := { key := "lusd_in_pool", required := true }

/-- Concrete entry-condition leaf that stores `True` under `_condition_`
(the default `Visitor.expr` behaviour for a true expression). -/
def entryTrueLeaf : Step := .leaf "Expr" "cond" fun s => (setS s condKey (.vbool true), false)

/-- Concrete entry-condition leaf that stores `False` under `_condition_`. -/
def entryFalseLeaf : Step := .leaf "Expr" "cond" fun s => (setS s condKey (.vbool false), false)

/-- Concrete entry-condition leaf that writes an unrelated key and leaves
`_condition_` unset. -/
def entryNoKeyLeaf : Step := .leaf "Expr" "cond" fun s => (setS s "probe" (.vint 7), false)

/-- Concrete child behaviour writing `y = 10` with no chain effect. -/
def writeY : StateM → StateM × Bool := fun s => (setS s "y" (.vint 10), false)

/-- Concrete guard writing `g_key` with no chain effect. -/
def writeGuard : Step := .leaf "Balance" "gkey" fun s => (setS s "g_key" (.vint 1), false)

/-- Concrete read-only-looking guard that nevertheless reports a chain
effect (like the misbehaving `balance` executor of the chain-effect test). -/
def effGuard : Step := .leaf "Balance" "bal" fun s => (s, true)

/-- Concrete pipeline root with two sibling `Transform` steps lacking slugs
(the scenario named by the slug-assignment claim). -/
def twinTree : Step :=
  .group "main" [] none [.leaf "Transform" "" noopRun, .leaf "Transform" "" noopRun]

/-- The tree `twinTree` after slug assignment: the siblings receive
`transform` and `transform_1`. -/
def twinTreeLabeled : Step :=
  .group "main" [] none
    [.leaf "Transform" "transform" noopRun, .leaf "Transform" "transform_1" noopRun]

/-! Theorems.  First, the decimal printer is injective, giving the
pigeonhole argument that `freshSlug` always finds an unused slug. -/

theorem string_eq_of_data {s t : String} (h : s.data = t.data) : s = t := by
  cases s
  cases t
  exact congrArg String.mk h

theorem string_ne_empty_iff (s : String) : s ≠ "" ↔ s.data ≠ [] := by
  constructor
  · intro h hd
    exact h (string_eq_of_data hd)
  · intro h hd
    exact h (congrArg String.data hd)

theorem digCh_val {d : Nat} (h : d < 10) : (digCh d).toNat - '0'.toNat = d := by
  interval_cases d <;> rfl

theorem decVal_append_digit (l : List Char) (c : Char) :
    decVal (l ++ [c]) = decVal l * 10 + (c.toNat - '0'.toNat) := by
  simp [decVal, List.foldl_append]

theorem natDecAux_val : ∀ fuel n, n < fuel → decVal (natDecAux fuel n) = n := by
  intro fuel
  induction fuel with
  | zero => omega
  | succ f ih =>
      intro n h
      rw [natDecAux]
      split
      · rename_i h10
        simpa [decVal] using digCh_val h10
      · rename_i h10
        rw [decVal_append_digit, ih (n / 10) (by omega), digCh_val (by omega)]
        omega

theorem natDec_inj {a b : Nat} (h : natDec a = natDec b) : a = b := by
  have hd : natDecAux (a + 1) a = natDecAux (b + 1) b := congrArg String.data h
  have ha := natDecAux_val (a + 1) a (by omega)
  have hb := natDecAux_val (b + 1) b (by omega)
  rw [hd, hb] at ha
  omega

theorem slugCand_inj (base : String) {i j : Nat} (h : slugCand base i = slugCand base j) :
    i = j := by
  have hd := congrArg String.data h
  simp only [slugCand, String.data_append] at hd
  have h2 : (natDec i).data = (natDec j).data := by
    rw [List.append_assoc, List.append_assoc] at hd
    have := List.append_cancel_left hd
    exact List.append_cancel_left this
  exact natDec_inj (string_eq_of_data h2)

theorem candList_subset (seen : List String) (base : String) :
    ∀ fuel i, ∀ x ∈ candList seen base i fuel, x ∈ seen := by
  intro fuel
  induction fuel with
  | zero => simp [candList]
  | succ f ih =>
      intro i x hx
      rw [candList] at hx
      rcases List.mem_append.1 hx with h1 | h2
      · split at h1
        · rename_i hmem
          rcases List.mem_singleton.1 h1 with rfl
          exact hmem
        · simp at h1
      · exact ih (i + 1) x h2

theorem candList_mem_idx (seen : List String) (base : String) :
    ∀ fuel i, ∀ x ∈ candList seen base i fuel, ∃ j, i ≤ j ∧ x = slugCand base j := by
  intro fuel
  induction fuel with
  | zero => simp [candList]
  | succ f ih =>
      intro i x hx
      rw [candList] at hx
      rcases List.mem_append.1 hx with h1 | h2
      · split at h1
        · rcases List.mem_singleton.1 h1 with rfl
          exact ⟨i, le_refl i, rfl⟩
        · simp at h1
      · rcases ih (i + 1) x h2 with ⟨j, hj, hx⟩
        exact ⟨j, by omega, hx⟩

theorem candList_nodup (seen : List String) (base : String) :
    ∀ fuel i, (candList seen base i fuel).Nodup := by
  intro fuel
  induction fuel with
  | zero => simp [candList]
  | succ f ih =>
      intro i
      rw [candList]
      split
      · simp only [List.singleton_append, List.nodup_cons]
        refine ⟨fun hmem => ?_, ih (i + 1)⟩
        rcases candList_mem_idx seen base f (i + 1) _ hmem with ⟨j, hj, hx⟩
        have := slugCand_inj base hx
        omega
      · simpa using ih (i + 1)

theorem candList_length_le (seen : List String) (base : String) (fuel i : Nat) :
    (candList seen base i fuel).length ≤ seen.length :=
  (List.subperm_of_subset (candList_nodup seen base fuel i)
    (candList_subset seen base fuel i)).length_le

theorem freshGo_not_mem (seen : List String) (base : String) :
    ∀ fuel i, (candList seen base i fuel).length < fuel →
      freshGo seen base fuel i ∉ seen := by
  intro fuel
  induction fuel with
  | zero => omega
  | succ f ih =>
      intro i h
      rw [freshGo]
      by_cases hc : slugCand base i ∈ seen
      · simp only [hc, if_true]
        apply ih
        rw [candList, if_pos hc] at h
        simpa using Nat.lt_of_succ_lt_succ (by simpa using h)
      · simp [hc]

theorem freshSlug_not_mem (seen : List String) (base : String) :
    freshSlug seen base ∉ seen := by
  unfold freshSlug
  split
  · exact freshGo_not_mem seen base (seen.length + 1) 1
      (Nat.lt_succ_of_le (candList_length_le seen base (seen.length + 1) 1))
  · assumption

theorem sub1F_cons (f : Nat) (c : Char) (rest : List Char) :
    ∃ t, sub1F (f + 1) (c :: rest) = c :: t := by
  match rest with
  | [] => exact ⟨[], rfl⟩
  | [d] => exact ⟨[d], rfl⟩
  | d :: e :: tail =>
      rw [sub1F]
      split
      · exact ⟨_, rfl⟩
      · exact ⟨_, rfl⟩

theorem sub2F_cons (f : Nat) (c : Char) (rest : List Char) :
    ∃ t, sub2F (f + 1) (c :: rest) = c :: t := by
  match rest with
  | [] => exact ⟨[], rfl⟩
  | d :: tail =>
      rw [sub2F]
      split
      · exact ⟨_, rfl⟩
      · exact ⟨_, rfl⟩

theorem camelToSnake_ne_empty {s : String} (h : s ≠ "") : camelToSnake s ≠ "" := by
  rw [string_ne_empty_iff] at h ⊢
  show (sub2 (sub1 s.data)).map Char.toLower ≠ []
  cases hs : s.data with
  | nil => exact absurd hs h
  | cons c rest =>
      unfold sub1
      rw [List.length_cons]
      rcases sub1F_cons rest.length c rest with ⟨t, ht⟩
      rw [ht]
      unfold sub2
      rw [List.length_cons]
      rcases sub2F_cons t.length c t with ⟨t2, ht2⟩
      rw [ht2]
      simp

theorem slugCand_ne_empty (base : String) (i : Nat) : slugCand base i ≠ "" := by
  rw [string_ne_empty_iff]
  simp [slugCand, String.data_append]

theorem freshGo_eq_cand (seen : List String) (base : String) :
    ∀ fuel i, ∃ j, freshGo seen base fuel i = slugCand base j := by
  intro fuel
  induction fuel with
  | zero => exact fun i => ⟨i, rfl⟩
  | succ f ih =>
      intro i
      rw [freshGo]
      by_cases hc : slugCand base i ∈ seen
      · simpa [hc] using ih (i + 1)
      · exact ⟨i, by simp [hc]⟩

theorem freshSlug_ne_empty (seen : List String) {base : String} (h : base ≠ "") :
    freshSlug seen base ≠ "" := by
  unfold freshSlug
  split
  · rcases freshGo_eq_cand seen base (seen.length + 1) 1 with ⟨j, hj⟩
    rw [hj]
    exact slugCand_ne_empty base j
  · exact h

theorem bindOkE {ε α β : Type} (a : α) (f : α → Except ε β) :
    (Except.ok a >>= f) = f a := rfl

theorem bindErrE {ε α β : Type} (e : ε) (f : α → Except ε β) :
    ((Except.error e : Except ε α) >>= f) = Except.error e := rfl

theorem assignSlug_spec {slug className s' : String} {seen seen' : List String}
    (hcn : className ≠ "") (h : assignSlug slug className seen = .ok (s', seen')) :
    seen' = seen ++ [s'] ∧ s' ∉ seen ∧ s' ≠ "" := by
  unfold assignSlug at h
  split at h
  · rename_i hne
    split at h
    · exact absurd h (by simp)
    · rename_i hmem
      simp only [Except.ok.injEq, Prod.mk.injEq] at h
      obtain ⟨rfl, rfl⟩ := h
      exact ⟨rfl, hmem, hne⟩
  · rename_i hne
    simp only [Except.ok.injEq, Prod.mk.injEq] at h
    obtain ⟨rfl, rfl⟩ := h
    exact ⟨rfl, freshSlug_not_mem seen _, freshSlug_ne_empty seen (camelToSnake_ne_empty hcn)⟩

theorem nodup_append_singleton {l : List String} {x : String} (h : l.Nodup)
    (hx : x ∉ l) : (l ++ [x]).Nodup := by
  rw [List.nodup_append]
  refine ⟨h, List.nodup_singleton x, ?_⟩
  intro a ha hax
  rcases List.mem_singleton.1 hax with rfl
  exact hx ha

mutual

theorem initSlugs_spec (t : Step) :
    ∀ (seen : List String) (t' : Step) (seen' : List String),
      namesOk t = true → seen.Nodup → initSlugs t seen = .ok (t', seen') →
      seen' = seen ++ slugsOf t' ∧ seen'.Nodup ∧ ∀ x ∈ slugsOf t', x ≠ "" := by
  match t with
  | .leaf cn slug run =>
      intro seen t' seen' hn hnd h
      rw [initSlugs] at h
      cases hassign : assignSlug slug cn seen with
      | error e => rw [hassign, bindErrE] at h; exact Except.noConfusion h
      | ok p =>
          obtain ⟨s1, seen1⟩ := p
          rw [hassign, bindOkE] at h
          dsimp only at h
          simp only [Except.ok.injEq, Prod.mk.injEq] at h
          obtain ⟨rfl, rfl⟩ := h
          have hcn : cn ≠ "" := by simpa [namesOk] using hn
          obtain ⟨he, hmem, hne⟩ := assignSlug_spec hcn hassign
          refine ⟨by simpa [slugsOf] using he, ?_, ?_⟩
          · rw [he]; exact nodup_append_singleton hnd hmem
          · intro x hx
            rcases by simpa [slugsOf] using hx with rfl
            exact hne
  | .group slug given entry steps =>
      intro seen t' seen' hn hnd h
      rw [initSlugs] at h
      cases hassign : assignSlug slug "Group" seen with
      | error e => rw [hassign, bindErrE] at h; exact Except.noConfusion h
      | ok p =>
          obtain ⟨s1, seen1⟩ := p
          rw [hassign, bindOkE] at h
          dsimp only at h
          cases hgiven : initList given seen1 with
          | error e => rw [hgiven, bindErrE] at h; exact Except.noConfusion h
          | ok pg =>
              obtain ⟨given', seen2⟩ := pg
              rw [hgiven, bindOkE] at h
              dsimp only at h
              cases hentry : initOpt entry seen2 with
              | error e => rw [hentry, bindErrE] at h; exact Except.noConfusion h
              | ok pe =>
                  obtain ⟨entry', seen3⟩ := pe
                  rw [hentry, bindOkE] at h
                  dsimp only at h
                  cases hsteps : initList steps seen3 with
                  | error e => rw [hsteps, bindErrE] at h; exact Except.noConfusion h
                  | ok ps =>
                      obtain ⟨steps', seen4⟩ := ps
                      rw [hsteps, bindOkE] at h
                      dsimp only at h
                      simp only [Except.ok.injEq, Prod.mk.injEq] at h
                      obtain ⟨rfl, rfl⟩ := h
                      simp only [namesOk, Bool.and_eq_true] at hn
                      obtain ⟨⟨hng, hne⟩, hns⟩ := hn
                      obtain ⟨e1, m1, x1⟩ := assignSlug_spec (by simp) hassign
                      have nd1 : seen1.Nodup := by
                        rw [e1]; exact nodup_append_singleton hnd m1
                      obtain ⟨e2, nd2, x2⟩ := initList_spec given seen1 given' seen2 hng nd1 hgiven
                      obtain ⟨e3, nd3, x3⟩ := initOpt_spec entry seen2 entry' seen3 hne nd2 hentry
                      obtain ⟨e4, nd4, x4⟩ := initList_spec steps seen3 steps' seen4 hns nd3 hsteps
                      refine ⟨?_, nd4, ?_⟩
                      · rw [e4, e3, e2, e1]
                        simp [slugsOf, List.append_assoc]
                      · intro x hx
                        rw [slugsOf] at hx
                        rcases List.mem_cons.1 hx with rfl | hx2
                        · exact x1
                        · rcases List.mem_append.1 hx2 with hx3 | hss
                          · rcases List.mem_append.1 hx3 with hgg | hee
                            · exact x2 x hgg
                            · exact x3 x hee
                          · exact x4 x hss
  | .repeatG slug given entry steps maxF =>
      intro seen t' seen' hn hnd h
      rw [initSlugs] at h
      cases hassign : assignSlug slug "Repeat" seen with
      | error e => rw [hassign, bindErrE] at h; exact Except.noConfusion h
      | ok p =>
          obtain ⟨s1, seen1⟩ := p
          rw [hassign, bindOkE] at h
          dsimp only at h
          cases hgiven : initList given seen1 with
          | error e => rw [hgiven, bindErrE] at h; exact Except.noConfusion h
          | ok pg =>
              obtain ⟨given', seen2⟩ := pg
              rw [hgiven, bindOkE] at h
              dsimp only at h
              cases hentry : initOpt entry seen2 with
              | error e => rw [hentry, bindErrE] at h; exact Except.noConfusion h
              | ok pe =>
                  obtain ⟨entry', seen3⟩ := pe
                  rw [hentry, bindOkE] at h
                  dsimp only at h
                  cases hsteps : initList steps seen3 with
                  | error e => rw [hsteps, bindErrE] at h; exact Except.noConfusion h
                  | ok ps =>
                      obtain ⟨steps', seen4⟩ := ps
                      rw [hsteps, bindOkE] at h
                      dsimp only at h
                      simp only [Except.ok.injEq, Prod.mk.injEq] at h
                      obtain ⟨rfl, rfl⟩ := h
                      simp only [namesOk, Bool.and_eq_true] at hn
                      obtain ⟨⟨hng, hne⟩, hns⟩ := hn
                      obtain ⟨e1, m1, x1⟩ := assignSlug_spec (by simp) hassign
                      have nd1 : seen1.Nodup := by
                        rw [e1]; exact nodup_append_singleton hnd m1
                      obtain ⟨e2, nd2, x2⟩ := initList_spec given seen1 given' seen2 hng nd1 hgiven
                      obtain ⟨e3, nd3, x3⟩ := initOpt_spec entry seen2 entry' seen3 hne nd2 hentry
                      obtain ⟨e4, nd4, x4⟩ := initList_spec steps seen3 steps' seen4 hns nd3 hsteps
                      refine ⟨?_, nd4, ?_⟩
                      · rw [e4, e3, e2, e1]
                        simp [slugsOf, List.append_assoc]
                      · intro x hx
                        rw [slugsOf] at hx
                        rcases List.mem_cons.1 hx with rfl | hx2
                        · exact x1
                        · rcases List.mem_append.1 hx2 with hx3 | hss
                          · rcases List.mem_append.1 hx3 with hgg | hee
                            · exact x2 x hgg
                            · exact x3 x hee
                          · exact x4 x hss
termination_by sizeOf t

theorem initList_spec (ts : List Step) :
    ∀ (seen : List String) (ts' : List Step) (seen' : List String),
      namesOkList ts = true → seen.Nodup → initList ts seen = .ok (ts', seen') →
      seen' = seen ++ slugsList ts' ∧ seen'.Nodup ∧ ∀ x ∈ slugsList ts', x ≠ "" := by
  match ts with
  | [] =>
      intro seen ts' seen' hn hnd h
      rw [initList] at h
      simp only [Except.ok.injEq, Prod.mk.injEq] at h
      obtain ⟨rfl, rfl⟩ := h
      simp [slugsList, hnd]
  | t :: rest =>
      intro seen ts' seen' hn hnd h
      rw [initList] at h
      cases ht : initSlugs t seen with
      | error e => rw [ht, bindErrE] at h; exact Except.noConfusion h
      | ok p =>
          obtain ⟨t', seen1⟩ := p
          rw [ht, bindOkE] at h
          dsimp only at h
          cases hrest : initList rest seen1 with
          | error e => rw [hrest, bindErrE] at h; exact Except.noConfusion h
          | ok pr =>
              obtain ⟨rest', seen2⟩ := pr
              rw [hrest, bindOkE] at h
              dsimp only at h
              simp only [Except.ok.injEq, Prod.mk.injEq] at h
              obtain ⟨rfl, rfl⟩ := h
              simp only [namesOkList, Bool.and_eq_true] at hn
              obtain ⟨hn1, hn2⟩ := hn
              obtain ⟨e1, nd1, x1⟩ := initSlugs_spec t seen t' seen1 hn1 hnd ht
              obtain ⟨e2, nd2, x2⟩ := initList_spec rest seen1 rest' seen2 hn2 nd1 hrest
              refine ⟨?_, nd2, ?_⟩
              · rw [e2, e1]
                simp [slugsList, List.append_assoc]
              · intro x hx
                simp only [slugsList, List.mem_append] at hx
                rcases hx with h1 | h2
                · exact x1 x h1
                · exact x2 x h2
termination_by sizeOf ts

theorem initOpt_spec (o : Option Step) :
    ∀ (seen : List String) (o' : Option Step) (seen' : List String),
      namesOkOpt o = true → seen.Nodup → initOpt o seen = .ok (o', seen') →
      seen' = seen ++ slugsOpt o' ∧ seen'.Nodup ∧ ∀ x ∈ slugsOpt o', x ≠ "" := by
  match o with
  | none =>
      intro seen o' seen' hn hnd h
      rw [initOpt] at h
      simp only [Except.ok.injEq, Prod.mk.injEq] at h
      obtain ⟨rfl, rfl⟩ := h
      simp [slugsOpt, hnd]
  | some t =>
      intro seen o' seen' hn hnd h
      rw [initOpt] at h
      cases ht : initSlugs t seen with
      | error e => rw [ht, bindErrE] at h; exact Except.noConfusion h
      | ok p =>
          obtain ⟨t', seen1⟩ := p
          rw [ht, bindOkE] at h
          dsimp only at h
          simp only [Except.ok.injEq, Prod.mk.injEq] at h
          obtain ⟨rfl, rfl⟩ := h
          have hn1 : namesOk t = true := by simpa [namesOkOpt] using hn
          obtain ⟨e1, nd1, x1⟩ := initSlugs_spec t seen t' seen1 hn1 hnd ht
          exact ⟨by simpa [slugsOpt] using e1, nd1, by simpa [slugsOpt] using x1⟩
termination_by sizeOf o

end

/-- C7: for every constructed Pipeline (a tree on which `_init_slugs`
succeeded), every step has a non-empty slug that is unique within the tree;
a step without a pre-assigned slug receives the snake-cased form of its type
name with `_1`, `_2`, … appended until unique, so two sibling auto-slugged
`Transform` steps receive the slugs `transform` and `transform_1`. -/
theorem c7_unique_slugs :
    (∀ (t t' : Step) (seen' : List String), namesOk t = true →
        initSlugs t [] = .ok (t', seen') →
        (slugsOf t').Nodup ∧ ∀ x ∈ slugsOf t', x ≠ "")
    ∧ initSlugs twinTree [] = .ok (twinTreeLabeled, ["main", "transform", "transform_1"]) := by
  constructor
  · intro t t' seen' hn h
    obtain ⟨he, hnd, hx⟩ := initSlugs_spec t [] t' seen' hn List.nodup_nil h
    simp only [List.nil_append] at he
    exact ⟨he ▸ hnd, hx⟩
  · simp only [twinTree, twinTreeLabeled, initSlugs, initList, initOpt]
    rfl

/-- Witness for C7: the general statement applied to the concrete two-sibling
tree, with every hypothesis discharged by evaluation. -/
theorem c7_unique_slugs_witness :
    (slugsOf twinTreeLabeled).Nodup ∧ ∀ x ∈ slugsOf twinTreeLabeled, x ≠ "" :=
  c7_unique_slugs.1 twinTree twinTreeLabeled ["main", "transform", "transform_1"]
    (by simp [namesOk, namesOkList, namesOkOpt, twinTree])
    c7_unique_slugs.2


/-! Control-flow lemmas about `Group.accept` / `Repeat.accept`. -/

theorem runGivens_append (v : Visitor) (u : UP) (cslug : String) (l1 l2 : List Step) :
    ∀ s w, runGivens v u cslug (l1 ++ l2) s w =
      runGivens v u cslug l1 s w >>= fun p => runGivens v u cslug l2 p.1 p.2 := by
  induction l1 with
  | nil =>
      intro s w
      rw [List.nil_append]
      conv_rhs => rw [runGivens]
      rw [bindOkE]
  | cons g rest ih =>
      intro s w
      rw [List.cons_append, runGivens]
      conv_rhs => rw [runGivens]
      cases haccept : accept v (upFor u g.slugOf) g s with
      | error e => simp only [bindErrE]
      | ok ev =>
          rw [bindOkE, bindOkE]
          by_cases hce : ev.chainEffect = true
          · simp only [hce, if_true, bindErrE]
          · simp only [Bool.not_eq_true] at hce
            simp only [hce, Bool.false_eq_true, if_false]
            exact ih ev.state (w || ev.warned)

theorem evalCond_guard_error (v : Visitor) (u : UP) (cslug : String)
    (front : List Step) (g : Step) (rest : List Step) (entry : Option Step)
    (s0 s1 : StateM) (w1 : Bool) (ev : EvalW)
    (hfront : runGivens v u cslug front s0 false = .ok (s1, w1))
    (hg : accept v (upFor u g.slugOf) g s1 = .ok ev)
    (heff : ev.chainEffect = true) :
    evalCond v u cslug (front ++ g :: rest) entry s0 =
      .error (.invalidChainEffect g.slugOf (cslug ++ ".given")) := by
  rw [evalCond, runGivens_append, hfront, bindOkE]
  dsimp only
  rw [runGivens, hg, bindOkE]
  simp only [heff, if_true, bindErrE]



theorem runChildren_leaves (v : Visitor) (u : UP) (cn sl : String)
    (fs : List (StateM → StateM × Bool)) :
    ∀ s any w, runChildren v u (fs.map (Step.leaf cn sl)) s any w =
      .ok (threadS fs s, any || anyEffS fs s, w) := by
  induction fs with
  | nil =>
      intro s any w
      rw [List.map_nil, runChildren, threadS, anyEffS]
      simp
  | cons f rest ih =>
      intro s any w
      rw [List.map_cons, runChildren, accept, bindOkE]
      dsimp only
      rw [ih, threadS, anyEffS]
      simp [Bool.or_assoc]

theorem repeatLoop_iters_le (cond : StateM → Except Err (StateM × Bool × Bool))
    (body : StateM → Bool → Except Err (StateM × Bool × Bool)) :
    ∀ (l : List Nat) (s : StateM) (any : Bool) (c0 n0 : Nat) (w : Bool) (r : LoopRes),
      repeatLoop cond body l s any c0 n0 w = .ok r → r.iters ≤ n0 + l.length := by
  intro l
  induction l with
  | nil =>
      intro s any c0 n0 w r h
      rw [repeatLoop] at h
      simp only [Except.ok.injEq] at h
      subst h
      simp
  | cons i rest ih =>
      intro s any c0 n0 w r h
      rw [repeatLoop] at h
      cases hcond : cond s with
      | error e => rw [hcond, bindErrE] at h; exact Except.noConfusion h
      | ok t =>
          obtain ⟨s1, condB, w1⟩ := t
          rw [hcond, bindOkE] at h
          dsimp only at h
          by_cases hc : condB = true
          · rw [if_pos hc] at h
            cases hbody : body s1 any with
            | error e => rw [hbody, bindErrE] at h; exact Except.noConfusion h
            | ok q =>
                obtain ⟨s2, any2, w2⟩ := q
                rw [hbody, bindOkE] at h
                dsimp only at h
                by_cases ha : any2 = true
                · rw [if_pos ha] at h
                  have := ih s2 any2 i (n0 + 1) (w || w1 || w2) r h
                  simpa [Nat.add_assoc, Nat.add_comm, Nat.add_left_comm] using this
                · rw [if_neg ha] at h
                  simp only [Except.ok.injEq] at h
                  subst h
                  simp only [List.length_cons]
                  omega
          · rw [if_neg hc] at h
            simp only [Except.ok.injEq] at h
            subst h
            simp only [List.length_cons]
            omega

theorem getLast?_cons_some :
    ∀ (t2 : List Nat) (b : Nat), ∃ x, (b :: t2).getLast? = some x := by
  intro t2
  induction t2 with
  | nil => intro b; exact ⟨b, rfl⟩
  | cons c t ih => intro b; rw [List.getLast?_cons_cons]; exact ih c

theorem repeatLoop_no_break (cond : StateM → Except Err (StateM × Bool × Bool))
    (body : StateM → Bool → Except Err (StateM × Bool × Bool)) :
    ∀ (l : List Nat) (s : StateM) (any : Bool) (c0 n0 : Nat) (w : Bool) (r : LoopRes),
      repeatLoop cond body l s any c0 n0 w = .ok r → r.broke = false →
      r.c = l.getLast?.getD c0 := by
  intro l
  induction l with
  | nil =>
      intro s any c0 n0 w r h hb
      rw [repeatLoop] at h
      simp only [Except.ok.injEq] at h
      subst h
      simp
  | cons i rest ih =>
      intro s any c0 n0 w r h hb
      rw [repeatLoop] at h
      cases hcond : cond s with
      | error e => rw [hcond, bindErrE] at h; exact Except.noConfusion h
      | ok t =>
          obtain ⟨s1, condB, w1⟩ := t
          rw [hcond, bindOkE] at h
          dsimp only at h
          by_cases hc : condB = true
          · rw [if_pos hc] at h
            cases hbody : body s1 any with
            | error e => rw [hbody, bindErrE] at h; exact Except.noConfusion h
            | ok q =>
                obtain ⟨s2, any2, w2⟩ := q
                rw [hbody, bindOkE] at h
                dsimp only at h
                by_cases ha : any2 = true
                · rw [if_pos ha] at h
                  have hr := ih s2 any2 i (n0 + 1) (w || w1 || w2) r h hb
                  rw [hr]
                  cases rest with
                  | nil => simp
                  | cons b t2 =>
                      obtain ⟨x, hx⟩ := getLast?_cons_some t2 b
                      rw [List.getLast?_cons_cons, hx]
                      rfl
                · rw [if_neg ha] at h
                  simp only [Except.ok.injEq] at h
                  subst h
                  simp at hb
          · rw [if_neg hc] at h
            simp only [Except.ok.injEq] at h
            subst h
            simp at hb

theorem range_getLastD (m : Nat) : (List.range m).getLast?.getD 0 = m - 1 := by
  cases m with
  | zero => simp
  | succ k => rw [List.range_succ]; simp


theorem evalCond_entry_error (v : Visitor) (u : UP) (cslug : String)
    (given : List Step) (e : Step) (s0 s1 : StateM) (w1 : Bool) (ev : EvalW)
    (hgiven : runGivens v u cslug given s0 false = .ok (s1, w1))
    (he : accept v (upFor u e.slugOf) e s1 = .ok ev)
    (heff : ev.chainEffect = true) :
    evalCond v u cslug given (some e) s0 =
      .error (.invalidChainEffectStep e (cslug ++ ".entry_condition")) := by
  rw [evalCond, hgiven, bindOkE]
  dsimp only
  rw [he, bindOkE]
  simp only [heff, if_true]

/-- C2: if any `given` guard step — or the `entry_condition` step — reports a
chain effect, executing the `Group` raises the invalid-chain-effect error
naming that step and the calling group's guard context (`<slug>.given`
resp. `<slug>.entry_condition`; in the latter case the error carries the
step object itself, as the code passes `self.entry_condition` for
`step_slug`), the pipeline run aborts with that error, and the group's
children never execute: the result is this error for every children list. -/
theorem c2_guard_chain_effect_aborts :
    (∀ (v : Visitor) (u : UP) (cslug : String) (front : List Step) (g : Step)
        (rest : List Step) (s s1 : StateM) (w1 : Bool) (ev : EvalW),
        runGivens v u cslug front (v.enterGroup s) false = .ok (s1, w1) →
        accept v (upFor u g.slugOf) g s1 = .ok ev →
        ev.chainEffect = true →
        ∀ (entry : Option Step) (steps : List Step),
          accept v u (.group cslug (front ++ g :: rest) entry steps) s =
            .error (.invalidChainEffect g.slugOf (cslug ++ ".given"))
          ∧ (s = [] → ∀ u0, u = upFor u0 cslug →
              runPipeline (.group cslug (front ++ g :: rest) entry steps) v u0 =
                .error (.invalidChainEffect g.slugOf (cslug ++ ".given"))))
    ∧ (∀ (v : Visitor) (u : UP) (cslug : String) (given : List Step) (e : Step)
        (s s1 : StateM) (w1 : Bool) (ev : EvalW),
        runGivens v u cslug given (v.enterGroup s) false = .ok (s1, w1) →
        accept v (upFor u e.slugOf) e s1 = .ok ev →
        ev.chainEffect = true →
        ∀ steps : List Step,
          accept v u (.group cslug given (some e) steps) s =
            .error (.invalidChainEffectStep e (cslug ++ ".entry_condition"))
          ∧ (s = [] → ∀ u0, u = upFor u0 cslug →
              runPipeline (.group cslug given (some e) steps) v u0 =
                .error (.invalidChainEffectStep e (cslug ++ ".entry_condition")))) := by
  constructor
  · intro v u cslug front g rest s s1 w1 ev hfront hg heff entry steps
    have hec := evalCond_guard_error v u cslug front g rest entry
      (v.enterGroup s) s1 w1 ev hfront hg heff
    have hacc : accept v u (.group cslug (front ++ g :: rest) entry steps) s =
        .error (.invalidChainEffect g.slugOf (cslug ++ ".given")) := by
      rw [accept, hec, bindErrE]
    refine ⟨hacc, ?_⟩
    intro hs u0 hu
    subst hs
    subst hu
    rw [runPipeline]
    show (accept (u := upFor u0 cslug) _ _ _).map _ = _
    rw [hacc]
    rfl
  · intro v u cslug given e s s1 w1 ev hgiven he heff steps
    have hec := evalCond_entry_error v u cslug given e
      (v.enterGroup s) s1 w1 ev hgiven he heff
    have hacc : accept v u (.group cslug given (some e) steps) s =
        .error (.invalidChainEffectStep e (cslug ++ ".entry_condition")) := by
      rw [accept, hec, bindErrE]
    refine ⟨hacc, ?_⟩
    intro hs u0 hu
    subst hs
    subst hu
    rw [runPipeline]
    show (accept (u := upFor u0 cslug) _ _ _).map _ = _
    rw [hacc]
    rfl


/-- Witness for C2: a group whose single guard reports a chain effect aborts
with the invalid-chain-effect error naming the guard and `grp.given`, and
its child never runs. -/
theorem c2_guard_chain_effect_aborts_witness :
    accept idV [] (Step.group "grp" [effGuard] none [alwaysEffLeaf]) [] =
      .error (.invalidChainEffect "bal" "grp.given")
    ∧ runPipeline (Step.group "grp" [effGuard] none [alwaysEffLeaf]) idV [] =
      .error (.invalidChainEffect "bal" "grp.given") := by
  have h := c2_guard_chain_effect_aborts.1 idV [] "grp" [] effGuard [] [] [] false
    ⟨[], true, false⟩ (by rw [runGivens]; rfl) (by rw [effGuard, accept]) rfl none [alwaysEffLeaf]
  exact ⟨h.1, h.2 rfl [] rfl⟩


/-- C3: with no declared `entry_condition` the condition is unconditionally
true; when the condition evaluates true, the children run in declaration
order threading state forward and the group's evaluation reports the OR of
every child's chain effect; when it evaluates false the children are
skipped and the evaluation reports `chainEffect = false`. -/
theorem c3_group_conditional_semantics :
    (∀ (v : Visitor) (u : UP) (cslug : String) (given : List Step)
        (s0 s1 : StateM) (w1 : Bool),
        runGivens v u cslug given s0 false = .ok (s1, w1) →
        evalCond v u cslug given none s0 = .ok (s1, true, w1))
    ∧ (∀ (v : Visitor) (u : UP) (cslug : String) (given : List Step)
        (entry : Option Step) (cn sl : String)
        (fs : List (StateM → StateM × Bool)) (s s1 : StateM) (w1 : Bool),
        evalCond v u cslug given entry (v.enterGroup s) = .ok (s1, true, w1) →
        accept v u (.group cslug given entry (fs.map (Step.leaf cn sl))) s =
          .ok ⟨v.exitGroup (threadS fs s1), anyEffS fs s1, w1⟩)
    ∧ (∀ (v : Visitor) (u : UP) (cslug : String) (given : List Step)
        (entry : Option Step) (steps : List Step) (s s1 : StateM) (w1 : Bool),
        evalCond v u cslug given entry (v.enterGroup s) = .ok (s1, false, w1) →
        accept v u (.group cslug given entry steps) s =
          .ok ⟨v.exitGroup s1, false, w1⟩) := by
  refine ⟨?_, ?_, ?_⟩
  · intro v u cslug given s0 s1 w1 hgiven
    rw [evalCond, hgiven, bindOkE]
  · intro v u cslug given entry cn sl fs s s1 w1 hec
    rw [accept, hec, bindOkE]
    dsimp only
    rw [if_pos rfl, runChildren_leaves, bindOkE]
    simp
  · intro v u cslug given entry steps s s1 w1 hec
    rw [accept, hec, bindOkE]
    dsimp only
    rw [if_neg (by simp)]

/-- Witness for C3: a group whose entry condition stores `True` runs its
single child (which writes `y = 10`, no chain effect); one whose entry
condition stores `False` skips the child. -/
theorem c3_group_conditional_semantics_witness :
    accept idV [] (.group "g" [] (some entryTrueLeaf)
        ([writeY].map (Step.leaf "Transform" "t"))) [] =
      .ok ⟨[(condKey, .vbool true), ("y", .vint 10)], false, false⟩
    ∧ accept idV [] (.group "g" [] (some entryFalseLeaf) [.leaf "Transform" "t" writeY]) [] =
      .ok ⟨[(condKey, .vbool false)], false, false⟩ := by
  constructor
  · exact c3_group_conditional_semantics.2.1 idV [] "g" [] (some entryTrueLeaf)
      "Transform" "t" [writeY] [] [(condKey, .vbool true)] false
      (by simp only [evalCond, runGivens, entryTrueLeaf, accept, bindOkE]; rfl)
  · exact c3_group_conditional_semantics.2.2 idV [] "g" [] (some entryFalseLeaf)
      [.leaf "Transform" "t" writeY] [] [(condKey, .vbool false)] false
      (by simp only [evalCond, runGivens, entryFalseLeaf, accept, bindOkE]; rfl)


theorem evalCond_entry_leaf_false (v : Visitor) (u : UP) (cslug cn sl : String)
    (given : List Step) (f : StateM → StateM × Bool) (s0 s1 : StateM) (w1 : Bool)
    (hgiven : runGivens v u cslug given s0 false = .ok (s1, w1))
    (hf : (f s1).2 = false)
    (hkey : getS (f s1).1 condKey = none) :
    evalCond v u cslug given (some (.leaf cn sl f)) s0 = .ok ((f s1).1, false, w1) := by
  rw [evalCond, hgiven, bindOkE]
  dsimp only
  rw [accept, bindOkE]
  dsimp only
  rw [if_neg (by simp [hf])]
  simp [hkey, truthyP]

theorem accept_group_condFalse (v : Visitor) (u : UP) (cslug : String)
    (given : List Step) (entry : Option Step) (steps : List Step)
    (s s1 : StateM) (w1 : Bool)
    (hec : evalCond v u cslug given entry (v.enterGroup s) = .ok (s1, false, w1)) :
    accept v u (.group cslug given entry steps) s = .ok ⟨v.exitGroup s1, false, w1⟩ := by
  rw [accept, hec, bindOkE]
  dsimp only
  rw [if_neg (by simp)]

/-- C9: when a declared `entry_condition` step leaves the reserved
`_condition_` key absent from state, `state.get("_condition_", False)`
makes the condition false — for a `Group` and for a `Repeat` alike the
children are skipped and the evaluation reports no chain effect. -/
theorem c9_missing_condition_defaults_false :
    (∀ (v : Visitor) (u : UP) (cslug cn sl : String) (given : List Step)
        (f : StateM → StateM × Bool) (s s1 : StateM) (w1 : Bool),
        runGivens v u cslug given (v.enterGroup s) false = .ok (s1, w1) →
        (f s1).2 = false →
        getS (f s1).1 condKey = none →
        ∀ steps : List Step,
          accept v u (.group cslug given (some (.leaf cn sl f)) steps) s =
            .ok ⟨v.exitGroup (f s1).1, false, w1⟩)
    ∧ (∀ (v : Visitor) (u : UP) (cslug cn sl : String) (given : List Step)
        (f : StateM → StateM × Bool) (s s1 : StateM) (w1 : Bool)
        (maxF : MaxField) (mv : Option PVal) (m : Int),
        resolveMax cslug maxF u = .ok mv →
        mv.bind toRangeInt = some m →
        0 < m →
        runGivens v u cslug given (v.enterRepeat s) false = .ok (s1, w1) →
        (f s1).2 = false →
        getS (f s1).1 condKey = none →
        ∀ steps : List Step,
          accept v u (.repeatG cslug given (some (.leaf cn sl f)) steps maxF) s =
            .ok ⟨v.exitRepeat (f s1).1, false,
              (false || w1) || decide ((0 : Int) ≥ m - 1)⟩) := by
  constructor
  · intro v u cslug cn sl given f s s1 w1 hgiven hf hkey steps
    exact accept_group_condFalse v u cslug given _ steps s _ w1
      (evalCond_entry_leaf_false v u cslug cn sl given f _ s1 w1 hgiven hf hkey)
  · intro v u cslug cn sl given f s s1 w1 maxF mv m hmax hbind hm hgiven hf hkey steps
    have hec := evalCond_entry_leaf_false v u cslug cn sl given f
      (v.enterRepeat s) s1 w1 hgiven hf hkey
    rw [accept, hmax, bindOkE]
    dsimp only
    rw [hbind]
    dsimp only
    obtain ⟨k, hk⟩ : ∃ k, m.toNat = k + 1 := ⟨m.toNat - 1, by omega⟩
    rw [hk, List.range_succ_eq_map, repeatLoop]
    dsimp only
    rw [hec, bindOkE]
    dsimp only
    rw [if_neg (by simp), bindOkE]
    rfl


/-- Witness for C9: an entry-condition step that writes only `probe` (never
`_condition_`) makes both a `Group` and a `Repeat` (max 5) skip their
always-effectful child. -/
theorem c9_missing_condition_defaults_false_witness :
    accept idV [] (.group "g2" [] (some entryNoKeyLeaf) [alwaysEffLeaf]) [] =
      .ok ⟨[("probe", .vint 7)], false, false⟩
    ∧ accept idV [] (.repeatG "r2" [] (some entryNoKeyLeaf) [alwaysEffLeaf]
        (.lit (.vint 5))) [] =
      .ok ⟨[("probe", .vint 7)], false, false⟩ := by
  constructor
  · exact c9_missing_condition_defaults_false.1 idV [] "g2" "Expr" "cond" []
      (fun s => (setS s "probe" (.vint 7), false)) [] [] false
      (by rw [runGivens]; rfl) rfl rfl [alwaysEffLeaf]
  · exact c9_missing_condition_defaults_false.2 idV [] "r2" "Expr" "cond" []
      (fun s => (setS s "probe" (.vint 7), false)) [] [] false
      (.lit (.vint 5)) (some (.vint 5)) 5 rfl rfl (by decide)
      (by rw [runGivens]; rfl) rfl rfl [alwaysEffLeaf]


/-- C10: state written by the `given` guard steps and by the
`entry_condition` step persists in the evaluation the group returns even
when the condition is false and all children are skipped — the final state
is exactly the guard/entry-threaded state passed through `exit_group`,
never the incoming state. -/
theorem c10_guard_state_persists :
    ∀ (v : Visitor) (u : UP) (cslug : String) (given : List Step) (e : Step)
      (s s1 s2 : StateM) (w1 w2 : Bool),
      runGivens v u cslug given (v.enterGroup s) false = .ok (s1, w1) →
      accept v (upFor u e.slugOf) e s1 = .ok ⟨s2, false, w2⟩ →
      truthyP ((getS s2 condKey).getD (.vbool false)) = false →
      ∀ steps : List Step,
        accept v u (.group cslug given (some e) steps) s =
          .ok ⟨v.exitGroup s2, false, w1 || w2⟩ := by
  intro v u cslug given e s s1 s2 w1 w2 hgiven haccept hcond steps
  have hec : evalCond v u cslug given (some e) (v.enterGroup s) =
      .ok (s2, false, w1 || w2) := by
    rw [evalCond, hgiven, bindOkE]
    dsimp only
    rw [haccept, bindOkE]
    dsimp only
    rw [if_neg (by simp), hcond]
  exact accept_group_condFalse v u cslug given (some e) steps s s2 (w1 || w2) hec

/-- Witness for C10: a guard writes `g_key`, the entry condition stores
`False`; the skipped child would have written `hit`, and the final state
contains `g_key` and `_condition_` but not `hit`. -/
theorem c10_guard_state_persists_witness :
    accept idV [] (.group "g3" [writeGuard] (some entryFalseLeaf) [alwaysEffLeaf]) [] =
      .ok ⟨[("g_key", .vint 1), (condKey, .vbool false)], false, false⟩ :=
  c10_guard_state_persists idV [] "g3" [writeGuard] entryFalseLeaf
    [] [("g_key", .vint 1)] [("g_key", .vint 1), (condKey, .vbool false)] false false
    (by simp only [runGivens, accept, writeGuard, bindOkE]; rfl)
    (by rw [entryFalseLeaf, accept]; rfl)
    rfl [alwaysEffLeaf]


/-- C4: a `Repeat` executes its children in at most `max` iterations (the
loop ranges over `range(max)`), and when the loop consumes the whole range
without a `break` — the cap is reached without a natural stop — the result
is still an ordinary evaluation carrying the accumulated state, no error is
raised, and the cap-reached warning is emitted. -/
theorem c4_repeat_iteration_cap :
    ∀ (v : Visitor) (u : UP) (cslug : String) (given : List Step)
      (entry : Option Step) (steps : List Step) (maxF : MaxField) (s : StateM)
      (mv : Option PVal) (m : Int) (r : LoopRes),
      resolveMax cslug maxF u = .ok mv →
      mv.bind toRangeInt = some m →
      repeatLoop (fun st => evalCond v u cslug given entry st)
          (fun st any => runChildren v u steps st any false)
          (List.range m.toNat) (v.enterRepeat s) false 0 0 false = .ok r →
      accept v u (.repeatG cslug given entry steps maxF) s =
        .ok ⟨v.exitRepeat r.state, r.anyEff, r.warned || decide ((r.c : Int) ≥ m - 1)⟩
      ∧ r.iters ≤ m.toNat
      ∧ (r.broke = false → (r.warned || decide ((r.c : Int) ≥ m - 1)) = true) := by
  intro v u cslug given entry steps maxF s mv m r hmax hbind hloop
  refine ⟨?_, ?_, ?_⟩
  · rw [accept, hmax, bindOkE]
    dsimp only
    rw [hbind]
    dsimp only
    rw [hloop, bindOkE]
  · have := repeatLoop_iters_le _ _ (List.range m.toNat)
      (v.enterRepeat s) false 0 0 false r hloop
    simpa using this
  · intro hb
    have hc := repeatLoop_no_break _ _ (List.range m.toNat)
      (v.enterRepeat s) false 0 0 false r hloop hb
    rw [range_getLastD] at hc
    have : ((r.c : Int) ≥ m - 1) := by
      rw [hc]
      omega
    simp [this]


/-- Witness for C4: the always-effectful `Repeat` with `max = 2` consumes
both range iterations without a break, returns the accumulated state with
no error, and the cap warning fires. -/
theorem c4_repeat_iteration_cap_witness :
    accept idV [] repCap [] = .ok ⟨[("hit", .vbool true)], true, true⟩
    ∧ (2 : Nat) ≤ 2 := by
  have h := c4_repeat_iteration_cap idV [] "cap_loop" [] none [alwaysEffLeaf]
    (.lit (.vint 2)) [] (some (.vint 2)) 2
    ⟨[("hit", .vbool true)], true, 1, 2, false, false⟩ rfl rfl
    (by simp only [evalCond, runGivens, runChildren, accept, alwaysEffLeaf, bindOkE]; rfl)
  exact ⟨h.1, h.2.1⟩


/-- C1 (failing-input evaluation): children that report a chain effect in
exactly the first iteration and none thereafter.  The claim predicts the
loop stops after the second iteration (counter `i = 2`), but because
`any_chain_effect` accumulates across iterations and is never reset, the
no-effect break can only fire while no iteration has ever produced an
effect: the loop consumes all `max = 3` range iterations without a break
(`iters = 3`, `broke = false`, final `i = 3`) and the cap warning fires —
contradicting both the claim and the code's own comment "cancel loop as
soon as one iteration did not produce any side effects". -/
theorem c1_repeat_runs_to_cap_on_intermittent_effects :
    repeatLoop (fun st => evalCond idV [] "loop" [] none st)
        (fun st any => runChildren idV [] [incOnceLeaf] st any false)
        (List.range 3) [] false 0 0 false =
      .ok ⟨[("i", .vint 3)], true, 2, 3, false, false⟩
    ∧ accept idV [] repOnce [] = .ok ⟨[("i", .vint 3)], true, true⟩ := by
  constructor
  · simp only [evalCond, runGivens, runChildren, accept, incOnceLeaf, bindOkE]
    rfl
  · simp only [accept, evalCond, runGivens, runChildren, incOnceLeaf, repOnce, bindOkE]
    rfl


theorem resolveField_par_missing (slug : String) (formal p : PParam)
    (state : StateM) (u : UP) (hreq : p.required = true)
    (hmiss : (lookupU u p.key = none ∧ (p.default = none ∨ p.default = some (.vstr ""))) ∨
      lookupU u p.key = some .nullv ∨ lookupU u p.key = some (.prim (.vstr ""))) :
    resolveField slug formal (.par p) state u = .error (.missingParam slug p.key) := by
  rw [resolveField]
  rcases hmiss with ⟨hlk, hd⟩ | hlk | hlk
  · rcases hd with hd | hd
    · simp [hlk, hd, hreq]
    · simp [hlk, hd, hreq]
  · simp [hlk, hreq]
  · simp [hlk, hreq]

theorem resolveField_par_coerce (slug : String) (formal p : PParam)
    (state : StateM) (u : UP) (uv : UVal)
    (hlk : lookupU u p.key = some uv) (hnull : uv ≠ .nullv)
    (hempty : uv ≠ .prim (.vstr "")) :
    resolveField slug formal (.par p) state u =
      (match coerceU p.ty uv with
        | none => .error (.invalidParamType slug p.key uv)
        | some a => .ok (some a)) := by
  rw [resolveField]
  match uv with
  | .nullv => exact absurd rfl hnull
  | .dict d => simp [hlk]
  | .prim (.vint n) => simp [hlk]
  | .prim (.vbool b) => simp [hlk]
  | .prim (.vdec m e) => simp [hlk]
  | .prim (.vstr str) =>
      have hne : str ≠ "" := fun hh => hempty (by rw [hh])
      simp [hlk, hne]

/-- C5: for a step whose (first) formal field holds a required `Param`,
resolution raises `MissingParam` naming the step slug and the param key when
the user value (falling back to the default) is absent, `None`, or the empty
string; raises `InvalidParamType` naming slug and key when a present value
fails type coercion; and succeeds — contributing the coerced value — when
the supplied value coerces, even from a different concrete type. -/
theorem c5_param_resolution :
    ∀ (slug f : String) (formal p : PParam)
      (rest : List (String × PParam × InstV)) (state : StateM) (u : UP),
      p.required = true →
      ((((lookupU u p.key = none ∧ (p.default = none ∨ p.default = some (.vstr ""))) ∨
          lookupU u p.key = some .nullv ∨
          lookupU u p.key = some (.prim (.vstr ""))) →
        prepareArgs ⟨slug, (f, formal, .par p) :: rest⟩ state u =
          .error (.missingParam slug p.key))
      ∧ (∀ uv, lookupU u p.key = some uv → uv ≠ .nullv → uv ≠ .prim (.vstr "") →
          coerceU p.ty uv = none →
          prepareArgs ⟨slug, (f, formal, .par p) :: rest⟩ state u =
            .error (.invalidParamType slug p.key uv))
      ∧ (∀ uv a, lookupU u p.key = some uv → uv ≠ .nullv → uv ≠ .prim (.vstr "") →
          coerceU p.ty uv = some a →
          prepareArgs ⟨slug, (f, formal, .par p) :: rest⟩ state u =
            (prepareFields slug state u rest).map (fun tail => (f, some a) :: tail))) := by
  intro slug f formal p rest state u hreq
  refine ⟨?_, ?_, ?_⟩
  · intro hmiss
    rw [prepareArgs, prepareFields,
      resolveField_par_missing slug formal p state u hreq hmiss, bindErrE]
  · intro uv hlk hnull hempty hco
    rw [prepareArgs, prepareFields,
      resolveField_par_coerce slug formal p state u uv hlk hnull hempty, hco, bindErrE]
  · intro uv a hlk hnull hempty hco
    rw [prepareArgs, prepareFields,
      resolveField_par_coerce slug formal p state u uv hlk hnull hempty, hco, bindOkE]
    cases hrest : prepareFields slug state u rest with
    | error e => rw [bindErrE]; rfl
    | ok tail => rw [bindOkE]; rfl


/-- Witness for C5: a required `Param[int]` with key `k` and no default —
omitted it raises `MissingParam`; supplied as the unparsable string `"abc"`
it raises `InvalidParamType`; supplied as the string `"42"` (a different
concrete type that `int()` coerces) it resolves to `42`. -/
theorem c5_param_resolution_witness :
    prepareArgs ⟨"st", [("amount", intParam, .par intParam)]⟩ [] [] =
      .error (.missingParam "st" "k")
    ∧ prepareArgs ⟨"st", [("amount", intParam, .par intParam)]⟩ []
        [("k", .prim (.vstr "abc"))] =
      .error (.invalidParamType "st" "k" (.prim (.vstr "abc")))
    ∧ prepareArgs ⟨"st", [("amount", intParam, .par intParam)]⟩ []
        [("k", .prim (.vstr "42"))] =
      .ok [("amount", some (.vint 42))] := by
  refine ⟨?_, ?_, ?_⟩
  · exact (c5_param_resolution "st" "amount" intParam intParam [] [] [] rfl).1
      (Or.inl ⟨rfl, Or.inl rfl⟩)
  · exact (c5_param_resolution "st" "amount" intParam intParam [] []
      [("k", .prim (.vstr "abc"))] rfl).2.1 (.prim (.vstr "abc")) rfl
      (by intro h; exact UVal.noConfusion h)
      (by intro h; injection h with h2; injection h2 with h3; exact absurd h3 (by decide))
      (by decide)
  · exact (c5_param_resolution "st" "amount" intParam intParam [] []
      [("k", .prim (.vstr "42"))] rfl).2.2 (.prim (.vstr "42")) (.vint 42) rfl
      (by intro h; exact UVal.noConfusion h)
      (by intro h; injection h with h2; injection h2 with h3; exact absurd h3 (by decide))
      (by decide)


/-- C6 (amended): a required `Ref` whose key is absent from state and which
has no default makes resolution signal `InvalidReference` naming the step's
slug and the ref's key — and per `errors.py` this error belongs to the
`PipelineDefinitionError` family, not the `PipelineExecutionError` family
the claim asserts. -/
theorem c6_invalid_reference_amended :
    ∀ (slug f : String) (formal : PParam) (r : PRef)
      (rest : List (String × PParam × InstV)) (state : StateM) (u : UP),
      r.required = true → r.default = none → getS state r.key = none →
      prepareArgs ⟨slug, (f, formal, .ref r) :: rest⟩ state u =
        .error (.invalidReference slug r.key)
      ∧ famOf (.invalidReference slug r.key) = .definitionError := by
  intro slug f formal r rest state u hreq hd hkey
  constructor
  · rw [prepareArgs, prepareFields]
    have hres : resolveField slug formal (.ref r) state u =
        .error (.invalidReference slug r.key) := by
      rw [resolveField]
      simp [hkey, hd, hreq]
    rw [hres, bindErrE]
  · rfl

/-- Counterexample for C6 as stated: at a concrete step with a required
`Ref` on an absent key, resolution does signal `InvalidReference` naming
slug and key, but the error's family is the definition-error family — not
the execution-error (`PipelineExecutionError`) family the claim asserts. -/
theorem c6_invalid_reference_family_counterexample :
    prepareArgs ⟨"withdraw_lusd", [("amount", amountFormal, .ref lusdRef)]⟩ [] [] =
      .error (.invalidReference "withdraw_lusd" "lusd_in_pool")
    ∧ famOf (.invalidReference "withdraw_lusd" "lusd_in_pool") ≠ .executionError := by
  exact ⟨rfl, by decide⟩

/-- Witness for the amended C6 at the concrete withdraw-LUSD shape. -/
theorem c6_invalid_reference_amended_witness :
    prepareArgs ⟨"withdraw_lusd", [("amount", amountFormal, .ref lusdRef)]⟩ [] [] =
      .error (.invalidReference "withdraw_lusd" "lusd_in_pool")
    ∧ famOf (.invalidReference "withdraw_lusd" "lusd_in_pool") = .definitionError :=
  c6_invalid_reference_amended "withdraw_lusd" "amount" amountFormal lusdRef
    [] [] [] rfl rfl rfl


/-- C8 (amended): the schema-export initial value of a `Param` is absent
whenever the param is not required — even if a default is set; for a
required param it is the default when one is set and truthy, else the
zero value of the declared type (Python's `default or self.type()` treats a
falsy default as unset). -/
theorem c8_param_initial_amended :
    ∀ p : PParam,
      (p.required = false → PParam.initial p = none)
      ∧ (∀ d, p.required = true → p.default = some d → truthyP d = true →
          PParam.initial p = some d)
      ∧ (p.required = true → p.default = none → PParam.initial p = some (zeroOf p.ty))
      ∧ (∀ d, p.required = true → p.default = some d → truthyP d = false →
          PParam.initial p = some (zeroOf p.ty)) := by
  intro p
  refine ⟨?_, ?_, ?_, ?_⟩
  · intro h; rw [PParam.initial, if_neg (by simp [h])]
  · intro d h hd ht; rw [PParam.initial, if_pos h, hd]; simp [ht]
  · intro h hd; rw [PParam.initial, if_pos h, hd]
  · intro d h hd ht; rw [PParam.initial, if_pos h, hd]; simp [ht]

/-- Counterexample for C8 as stated: a non-required `Param[str]` with
default `"ETH"` — the claim's reading exports the default, but
`Param.initial` returns `None` because `required` is checked first. -/
theorem c8_param_initial_counterexample :
    PParam.initial ethTokenParam = none
    ∧ claimInitial ethTokenParam = some (.vstr "ETH")
    ∧ (none : Option PVal) ≠ some (.vstr "ETH") := by
  refine ⟨rfl, rfl, by decide⟩

/-- Witness for the amended C8: a non-required param with a default exports
nothing; the stock `max` param exports its default `50`; a required param
with no default exports the zero value of its type. -/
theorem c8_param_initial_amended_witness :
    PParam.initial ethTokenParam = none
    ∧ PParam.initial maxFormal = some (.vint 50)
    ∧ PParam.initial intParam = some (.vint 0) :=
  ⟨(c8_param_initial_amended ethTokenParam).1 rfl,
    (c8_param_initial_amended maxFormal).2.1 (.vint 50) rfl rfl (by decide),
    (c8_param_initial_amended intParam).2.2.1 rfl rfl⟩

end AutoDefi
